import Mathlib

/-!
Verification development for the lease-clause classification core:
the text normalizer and clause segmenter (pdf_reader), the text
preprocessor (preprocessor), and the classifier facade (classifier).

Strings are modelled as lists of Unicode code points (`List Char`),
matching Python string semantics (indexing and `len` count code points).
Regular-expression operations of the source are embedded as explicit
recursive scanners with the exact left-to-right, non-overlapping,
greedy-with-backtracking semantics of the Python `re` module on the
concrete patterns used by the source.
-/

abbrev Str := List Char

/-- Whitespace per Python: the character set recognized by str.strip, str.split
and the regex class \s on unicode strings. -/
def pySpace (c : Char) : Bool :=
  decide (c.toNat = 32 ∨ c.toNat = 9 ∨ c.toNat = 10 ∨ c.toNat = 11 ∨ c.toNat = 12 ∨
    c.toNat = 13 ∨ c.toNat = 28 ∨ c.toNat = 29 ∨ c.toNat = 30 ∨ c.toNat = 31 ∨
    c.toNat = 133 ∨ c.toNat = 160 ∨ c.toNat = 5760 ∨
    (8192 ≤ c.toNat ∧ c.toNat ≤ 8202) ∨ c.toNat = 8232 ∨ c.toNat = 8233 ∨
    c.toNat = 8239 ∨ c.toNat = 8287 ∨ c.toNat = 12288)

/-- The character class of normalize_text step 2, the regex
\n(?![A-Z0-9\(\)\[\]\â€¢\-\*\d]): uppercase ASCII letters, ASCII digits,
round and square brackets, the three literal characters â € ¢ (the
source file contains the double-encoded bullet), hyphen and asterisk.
A newline is kept only when the next character is in this class. -/
def keepAfterNl (c : Char) : Bool :=
  decide ((65 ≤ c.toNat ∧ c.toNat ≤ 90) ∨ (48 ≤ c.toNat ∧ c.toNat ≤ 57) ∨
    c.toNat = 40 ∨ c.toNat = 41 ∨ c.toNat = 91 ∨ c.toNat = 93 ∨
    c.toNat = 226 ∨ c.toNat = 8364 ∨ c.toNat = 162 ∨ c.toNat = 45 ∨ c.toNat = 42)

/-- Sentence-ending punctuation of the buffer-flush test in normalize_text,
the regex class [.!?:;]. -/
def isPunctEnd (c : Char) : Bool :=
  decide (c.toNat = 46 ∨ c.toNat = 33 ∨ c.toNat = 63 ∨ c.toNat = 58 ∨ c.toNat = 59)

/-- ASCII uppercase letter, the class [A-Z]. -/
def isUpperA (c : Char) : Bool := decide (65 ≤ c.toNat ∧ c.toNat ≤ 90)

/-- ASCII digit, the class \d restricted to its ASCII range
(inputs are PDF-extracted ASCII text). -/
def isDigitA (c : Char) : Bool := decide (48 ≤ c.toNat ∧ c.toNat ≤ 57)

/-- ASCII letter of either case: the class [a-z] under re.IGNORECASE. -/
def isLetterA (c : Char) : Bool :=
  decide ((65 ≤ c.toNat ∧ c.toNat ≤ 90) ∨ (97 ≤ c.toNat ∧ c.toNat ≤ 122))

/-- ASCII letter or digit: the class [a-z0-9] under re.IGNORECASE. -/
def isAlnumA (c : Char) : Bool := isLetterA c || isDigitA c

/-- Python string.punctuation: the 32 ASCII punctuation characters, removed
by the preprocessor via str.translate. -/
def isPyPunct (c : Char) : Bool :=
  decide ((33 ≤ c.toNat ∧ c.toNat ≤ 47) ∨ (58 ≤ c.toNat ∧ c.toNat ≤ 64) ∨
    (91 ≤ c.toNat ∧ c.toNat ≤ 96) ∨ (123 ≤ c.toNat ∧ c.toNat ≤ 126))

/-- Occurrence test for the two-character sequence a b: true when the string
contains the character a immediately followed by the character b. -/
def hasSeq (a b : Char) : Str → Bool
  | c :: d :: rest => (decide (c = a) && decide (d = b)) || hasSeq a b (d :: rest)
  | _ => false

/-- Trailing-whitespace removal, the right half of Python str.strip. -/
def rstripP : Str → Str
  | [] => []
  | c :: rest =>
    if rstripP rest = [] ∧ pySpace c then [] else c :: rstripP rest

/-- Python str.strip(): drop leading and trailing whitespace. -/
def pyStrip (l : Str) : Str := rstripP (l.dropWhile pySpace)

/-- The buffer-flush test of normalize_text: re.search([.!?:;]\s*$, buffer),
equivalently the last non-whitespace character exists and is sentence-ending
punctuation. -/
def endsPunct (l : Str) : Bool :=
  match (rstripP l).getLast? with
  | some c => isPunctEnd c
  | none => false

/-- Step 1 of normalize_text: re.sub(-\n, empty), removing hyphenated
line breaks left-to-right without overlap. -/
def sub1 : Str → Str
  | [] => []
  | [c] => [c]
  | c :: d :: rest =>
    if c = '-' ∧ d = '\n' then sub1 rest else c :: sub1 (d :: rest)

/-- Step 2 of normalize_text: re.sub(\n(?![class]), space): a newline whose
next character is not in the keep class (including a newline at end of text)
becomes a space; the lookahead consumes nothing. -/
def sub2 : Str → Str
  | [] => []
  | c :: rest =>
    if c = '\n' then
      (match rest.head? with
       | some d => if keepAfterNl d then '\n' else ' '
       | none => ' ') :: sub2 rest
    else c :: sub2 rest

/-- Worker for step 3 of normalize_text (re.sub(space+, space)): the flag
records that the previous emitted character was part of a space run already
represented by one emitted space. -/
def sub3go : Bool → Str → Str
  | _, [] => []
  | inRun, c :: rest =>
    if c = ' ' then
      if inRun then sub3go true rest else ' ' :: sub3go true rest
    else c :: sub3go false rest

/-- Step 3 of normalize_text: collapse each maximal run of spaces to one space. -/
def sub3 (l : Str) : Str := sub3go false l

/-- Rewrite one maximal whitespace run for step 4 of normalize_text.
The regex \n\s*\n+ matches inside a maximal whitespace run exactly when the
run holds at least two newlines, and then (greedy \s* backtracking until \n+
can match) the match spans from the first newline of the run through the last
newline of the run.  The whitespace before the first newline and after the
last newline survives; the matched span is replaced by two newlines. -/
def flushRun (run : Str) : Str :=
  if 2 ≤ (run.filter (fun c => decide (c = '\n'))).length then
    (run.takeWhile (fun c => decide (¬ c = '\n'))) ++
      '\n' :: '\n' :: (run.reverse.takeWhile (fun c => decide (¬ c = '\n'))).reverse
  else run

/-- Worker for step 4 of normalize_text: accumulate the current maximal
whitespace run and rewrite it when it ends. -/
def sub4go (run : Str) : Str → Str
  | [] => flushRun run
  | c :: rest =>
    if pySpace c then sub4go (run ++ [c]) rest
    else flushRun run ++ c :: sub4go [] rest

/-- Step 4 of normalize_text: re.sub(\n\s*\n+, \n\n). -/
def sub4 (l : Str) : Str := sub4go [] l

/-- Prepend a character to the first piece of a split result. -/
def consHead (c : Char) : List Str → List Str
  | [] => [[c]]
  | s :: ss => (c :: s) :: ss

/-- Python text.split(newline): split on every single newline; the empty
string yields one empty piece. -/
def splitNl : Str → List Str
  | [] => [[]]
  | c :: rest => if c = '\n' then [] :: splitNl rest else consHead c (splitNl rest)

/-- Step 5 of normalize_text, the line-joining loop: lines are stripped;
an empty line flushes the buffer; a nonempty line is appended to the buffer
with a space unless the buffer already ends in sentence punctuation, in which
case the buffer is flushed and restarted. -/
def joinLines : List Str → Str → List Str
  | [], buf => if buf = [] then [] else [pyStrip buf]
  | line :: rest, buf =>
    if pyStrip line = [] then
      if buf = [] then joinLines rest buf else pyStrip buf :: joinLines rest []
    else if buf = [] then joinLines rest (pyStrip line)
    else if endsPunct buf then pyStrip buf :: joinLines rest (pyStrip line)
    else joinLines rest (buf ++ ' ' :: pyStrip line)

/-- Python newline.join(lines). -/
def joinNl : List Str → Str
  | [] => []
  | [s] => s
  | s :: rest => s ++ '\n' :: joinNl rest

/-- PDFReader.normalize_text: the five-step normalization of the source. -/
def normalizeText (t : Str) : Str :=
  joinNl (joinLines (splitNl (sub4 (sub3 (sub2 (sub1 t))))) [])

/-- Worker for the paragraph split re.split(\n\n+): pend counts the pending
consecutive newlines seen so far; a pending run of two or more is a
delimiter, a single pending newline is literal text. -/
def spGo (pend : Nat) : Str → List Str
  | [] => if 2 ≤ pend then [[], []] else [List.replicate pend '\n']
  | c :: rest =>
    if c = '\n' then spGo (pend + 1) rest
    else
      if 2 ≤ pend then [] :: consHead c (spGo 0 rest)
      else if pend = 1 then consHead '\n' (consHead c (spGo 0 rest))
      else consHead c (spGo 0 rest)

/-- The paragraph split of split_into_clauses: re.split(\n\n+, text). -/
def splitParas (l : Str) : List Str := spGo 0 l

/-- The section-marker test of split_into_clauses:
re.match of (\d+\.?\d*\.?|\([a-z0-9]+\)|[a-z]\))\s* with IGNORECASE at the
start of a paragraph.  The first alternative succeeds whenever the first
character is a digit (everything after \d+ is optional); the second needs an
opening parenthesis, one or more ASCII alphanumerics and a closing
parenthesis; the third a single ASCII letter followed by a closing
parenthesis. -/
def sectionMatch : Str → Bool
  | [] => false
  | c :: rest =>
    isDigitA c ||
    (decide (c = '(') &&
      (match rest.takeWhile isAlnumA, rest.dropWhile isAlnumA with
       | [], _ => false
       | _ :: _, ')' :: _ => true
       | _ :: _, _ => false)) ||
    (isLetterA c && decide (rest.head? = some ')'))

/-- Worker for the sentence split re.split((?<=[.!?])\s+(?=[A-Z]), para).
acc holds the current piece reversed; w holds the pending whitespace run.
A maximal whitespace run is a delimiter exactly when the character before it
is . ! or ? and the character after it is an ASCII uppercase letter
(matches cannot start inside the run: the lookbehind would see whitespace,
and a shorter greedy \s+ would be followed by whitespace, not [A-Z]). -/
def ssGo (acc w : Str) : Str → List Str
  | [] => [acc.reverse ++ w]
  | c :: rest =>
    if pySpace c then ssGo acc (w ++ [c]) rest
    else
      if w ≠ [] ∧ (acc.head? = some '.' ∨ acc.head? = some '!' ∨ acc.head? = some '?')
          ∧ isUpperA c then
        acc.reverse :: ssGo [c] [] rest
      else ssGo (c :: (w.reverse ++ acc)) [] rest

/-- The sentence split of split_into_clauses. -/
def sentSplit (l : Str) : List Str := ssGo [] [] l

/-- Worker for the fallback split re.split(\.\s+, text): a period followed by
at least one whitespace character is a delimiter consuming the period and the
maximal whitespace run; skipping records that the scanner is inside the
whitespace of a delimiter. -/
def fsGo (skipping : Bool) (acc : Str) : Str → List Str
  | [] => [acc.reverse]
  | c :: rest =>
    if skipping && pySpace c then fsGo true acc rest
    else
      if c = '.' then
        match rest.head? with
        | some d => if pySpace d then acc.reverse :: fsGo true [] rest
                    else fsGo false ('.' :: acc) rest
        | none => fsGo false ('.' :: acc) rest
      else fsGo false (c :: acc) rest

/-- The fallback split of split_into_clauses. -/
def simpleSplit (l : Str) : List Str := fsGo false [] l

/-- The per-paragraph loop of split_into_clauses: a blank paragraph is
skipped; a paragraph starting with a section marker is one clause candidate;
otherwise the paragraph is sentence-split and each sentence is a candidate.
Candidates are stripped and kept only when at least min_length long. -/
def clausesOfParas (minLength : Nat) : List Str → List Str
  | [] => []
  | para :: rest =>
    if pyStrip para = [] then clausesOfParas minLength rest
    else if sectionMatch (pyStrip para) then
      if minLength ≤ (pyStrip (pyStrip para)).length then
        pyStrip (pyStrip para) :: clausesOfParas minLength rest
      else clausesOfParas minLength rest
    else
      ((sentSplit (pyStrip para)).map pyStrip).filter (fun s => decide (minLength ≤ s.length))
        ++ clausesOfParas minLength rest

/-- The trailing-period repair of the fallback loop: a nonempty stripped
piece that does not already end with a period gets one appended. -/
def fallbackDot (p : Str) : Str :=
  if p ≠ [] ∧ p.getLast? ≠ some '.' then p ++ ['.'] else p

/-- The fallback loop of split_into_clauses: strip each piece, re-append a
final period to a nonempty piece missing one, keep pieces of at least
min_length. -/
def fallbackClauses (minLength : Nat) : List Str → List Str
  | [] => []
  | part :: rest =>
    if minLength ≤ (fallbackDot (pyStrip part)).length then
      fallbackDot (pyStrip part) :: fallbackClauses minLength rest
    else fallbackClauses minLength rest

/-- PDFReader.split_into_clauses: normalize, split into paragraphs, extract
clause candidates, and fall back to the simple period split when the main
pass found nothing. -/
def splitIntoClauses (text : Str) (minLength : Nat) : List Str :=
  if clausesOfParas minLength (splitParas (normalizeText text)) = [] then
    fallbackClauses minLength (simpleSplit (normalizeText text))
  else clausesOfParas minLength (splitParas (normalizeText text))

/-- TextPreprocessor: the three cleaning toggles of the source constructor. -/
structure TextPreprocessor where
  lowercase : Bool
  remove_punctuation : Bool
  remove_numbers : Bool

/-- The source constructs TextPreprocessor() with its default arguments. -/
def defaultPreprocessor : TextPreprocessor :=
  ⟨true, true, false⟩

/-- Worker for re.sub(\s+, space): collapse each maximal whitespace run to
one space. -/
def wsGo : Bool → Str → Str
  | _, [] => []
  | inRun, c :: rest =>
    if pySpace c then
      if inRun then wsGo true rest else ' ' :: wsGo true rest
    else c :: wsGo false rest

/-- Whitespace collapsing of clean_text. -/
def wsCollapse (l : Str) : Str := wsGo false l

/-- TextPreprocessor.clean_text: whitespace-normalize and strip, optionally
lowercase (ASCII case folding), optionally remove the 32 ASCII punctuation
characters, optionally remove ASCII digits, then whitespace-normalize and
strip again. -/
def TextPreprocessor.clean_text (pp : TextPreprocessor) (t : Str) : Str :=
  let t1 := pyStrip (wsCollapse t)
  let t2 := if pp.lowercase then t1.map Char.toLower else t1
  let t3 := if pp.remove_punctuation then t2.filter (fun c => !isPyPunct c) else t2
  let t4 := if pp.remove_numbers then t3.filter (fun c => !isDigitA c) else t3
  pyStrip (wsCollapse t4)

/-- TextPreprocessor.preprocess_batch: element-wise clean_text. -/
def TextPreprocessor.preprocess_batch (pp : TextPreprocessor) (ts : List Str) : List Str :=
  ts.map pp.clean_text

/-- First pair of maximal value in an association list, scanning left to
right and keeping the earlier pair on ties: the argmax rule of numpy argmax
and of Python max over dict keys with the dict lookup as key function. -/
def argmaxPair : List (Str × ℚ) → Option (Str × ℚ)
  | [] => none
  | p :: rest =>
    match argmaxPair rest with
    | none => some p
    | some q => if p.2 < q.2 then some q else some p

/-- Key of the maximal pair. -/
def argmaxKey (d : List (Str × ℚ)) : Option Str := (argmaxPair d).map Prod.fst

/-- Value of the maximal pair. -/
def maxVal (d : List (Str × ℚ)) : Option ℚ := (argmaxPair d).map Prod.snd

/-- Python dict lookup on an association list with distinct keys. -/
def dictLookup (d : List (Str × ℚ)) (k : Str) : Option ℚ :=
  (d.find? (fun p => decide (p.1 = k))).map Prod.snd

/-- Modelled from the spec: the fitted scikit-learn Pipeline of
TfidfVectorizer and SVC(probability=True) built by _create_pipeline.  The
library is not part of this repository; per the spec the fitted
feature/model pipeline exposes the sorted distinct label set fixed at fit
time and probability-calibrated output assigning every class a probability,
and prediction returns the label with the maximum probability
(spec: label == argmax(probability_distribution)). -/
structure FittedPipeline where
  classes : List Str
  proba : Str → List ℚ
  classes_nodup : classes.Nodup
  classes_ne : classes ≠ []
  proba_len : ∀ t, (proba t).length = classes.length

/-- Modelled from the spec: pipeline label prediction as the argmax of the
calibrated class probabilities (first class on ties, as numpy argmax). -/
def FittedPipeline.predictOne (P : FittedPipeline) (t : Str) : Str :=
  match argmaxPair (P.classes.zip (P.proba t)) with
  | some pr => pr.1
  | none => []

/-- Fitted-or-unfitted state of the facade: _is_fitted together with the
pipeline and classes_ attributes that are populated exactly when fitted. -/
inductive FitState where
  | unfitted : FitState
  | fitted : FittedPipeline → List Str → FitState

/-- LeaseClauseClassifier: hyperparameters from the constructor plus the
fitted state.  The constructor always builds TextPreprocessor() with default
arguments, so the preprocessor is the constant defaultPreprocessor. -/
structure LeaseClauseClassifier where
  kernel : Str
  C : ℚ
  gamma : Str ⊕ ℚ
  max_features : Nat
  state : FitState

/-- LeaseClauseClassifier() with the default constructor arguments. -/
def initClassifier : LeaseClauseClassifier :=
  ⟨"rbf".data, 1, Sum.inl ("scale".data), 5000, FitState.unfitted⟩

/-- The hyperparameter content of _create_pipeline: a fresh untrained
pipeline is determined by these settings (the TfidfVectorizer settings,
probability=True and random_state=42 are fixed constants of the source). -/
structure PipelineConfig where
  kernel : Str
  C : ℚ
  gamma : Str ⊕ ℚ
  max_features : Nat

/-- LeaseClauseClassifier._create_pipeline. -/
def LeaseClauseClassifier.create_pipeline (m : LeaseClauseClassifier) : PipelineConfig :=
  ⟨m.kernel, m.C, m.gamma, m.max_features⟩

def predictErrMsg : Str := "Classifier must be fitted before prediction.".data

def evaluateErrMsg : Str := "Classifier must be fitted before evaluation.".data

def saveErrMsg : Str := "Cannot save an unfitted classifier.".data

/-- LeaseClauseClassifier.fit: preprocess the texts, fit a fresh pipeline
(scikit-learn training is the oracle argument), store it and its class set.
Returns the updated instance (the source mutates self and returns self). -/
def LeaseClauseClassifier.fit (m : LeaseClauseClassifier)
    (fitOracle : PipelineConfig → List Str → List Str → FittedPipeline)
    (texts labels : List Str) : LeaseClauseClassifier :=
  let cleaned := defaultPreprocessor.preprocess_batch texts
  let P := fitOracle m.create_pipeline cleaned labels
  ⟨m.kernel, m.C, m.gamma, m.max_features, FitState.fitted P P.classes⟩

/-- LeaseClauseClassifier.predict: raises when unfitted; otherwise a single
string maps to a single label and a list maps element-wise to a list of
labels of the same length. -/
def LeaseClauseClassifier.predict (m : LeaseClauseClassifier)
    (texts : Str ⊕ List Str) : Except Str (Str ⊕ List Str) :=
  match m.state with
  | FitState.unfitted => Except.error predictErrMsg
  | FitState.fitted P _ =>
    match texts with
    | Sum.inl t => Except.ok (Sum.inl (P.predictOne (defaultPreprocessor.clean_text t)))
    | Sum.inr ts =>
      Except.ok (Sum.inr (ts.map (fun t => P.predictOne (defaultPreprocessor.clean_text t))))

/-- LeaseClauseClassifier.predict_proba: raises when unfitted; otherwise per
input the mapping from each class in classes_ to its probability, built in
class order (the dict comprehension over zip(classes_, probs)); single in,
single mapping out; list in, list of mappings out. -/
def LeaseClauseClassifier.predict_proba (m : LeaseClauseClassifier)
    (texts : Str ⊕ List Str) : Except Str (List (Str × ℚ) ⊕ List (List (Str × ℚ))) :=
  match m.state with
  | FitState.unfitted => Except.error predictErrMsg
  | FitState.fitted P cs =>
    match texts with
    | Sum.inl t =>
      Except.ok (Sum.inl (cs.zip (P.proba (defaultPreprocessor.clean_text t))))
    | Sum.inr ts =>
      Except.ok (Sum.inr (ts.map (fun t => cs.zip (P.proba (defaultPreprocessor.clean_text t)))))

/-- Accuracy numerator: positions where prediction and true label agree. -/
def countEq (a b : List Str) : Nat :=
  (a.zip b).countP (fun pr => decide (pr.1 = pr.2))

/-- Evaluation result: the accuracy fraction of sklearn accuracy_score and
the predicted labels.  The textual classification_report and the confusion
matrix of the source are renderings by sklearn.metrics of these same
predictions and are not modelled (no claim depends on them). -/
structure EvalResult where
  accuracy : ℚ
  predictions : List Str

/-- LeaseClauseClassifier.evaluate: raises when unfitted; otherwise predicts
over the test texts and scores against the true labels. -/
def LeaseClauseClassifier.evaluate (m : LeaseClauseClassifier)
    (texts labels : List Str) : Except Str EvalResult :=
  match m.state with
  | FitState.unfitted => Except.error evaluateErrMsg
  | FitState.fitted P _ =>
    let preds := (defaultPreprocessor.preprocess_batch texts).map P.predictOne
    Except.ok ⟨(countEq preds labels : ℚ) / (labels.length : ℚ), preds⟩

/-- Cross-validation result: per-fold scores, their mean, and the square of
their standard deviation (the population variance; the standard deviation
itself is an irrational square root, so its square is recorded). -/
structure CVResult where
  scores : List ℚ
  mean : ℚ
  std_sq : ℚ

/-- LeaseClauseClassifier.cross_validate: preprocess, build a fresh
pipeline configuration, and let sklearn cross_val_score (the oracle
argument) produce per-fold scores.  The method reads but never writes the
instance; the returned pair carries the unchanged instance. -/
def LeaseClauseClassifier.cross_validate (m : LeaseClauseClassifier)
    (cvScore : PipelineConfig → List Str → List Str → Nat → List ℚ)
    (texts labels : List Str) (cv : Nat) : CVResult × LeaseClauseClassifier :=
  let cleaned := defaultPreprocessor.preprocess_batch texts
  let scores := cvScore m.create_pipeline cleaned labels cv
  let mean := (scores.foldl (· + ·) 0) / (scores.length : ℚ)
  let var := ((scores.map (fun s => (s - mean) ^ 2)).foldl (· + ·) 0) / (scores.length : ℚ)
  (⟨scores, mean, var⟩, m)

/-- The serialized model_data of save: joblib persists this value faithfully
(serialization is modelled as the identity on the artifact value). -/
structure ModelArtifact where
  pipeline : FittedPipeline
  classes_ : List Str
  kernel : Str
  C : ℚ
  gamma : Str ⊕ ℚ
  max_features : Nat

/-- LeaseClauseClassifier.save: raises when unfitted; otherwise the artifact
holds the fitted pipeline, the classes_ list and the hyperparameter config. -/
def LeaseClauseClassifier.save (m : LeaseClauseClassifier) : Except Str ModelArtifact :=
  match m.state with
  | FitState.unfitted => Except.error saveErrMsg
  | FitState.fitted P cs =>
    Except.ok ⟨P, cs, m.kernel, m.C, m.gamma, m.max_features⟩

/-- LeaseClauseClassifier.load: reconstruct an instance from an artifact:
the constructor runs on the saved config and the fitted pipeline, classes_
and fitted flag are restored. -/
def LeaseClauseClassifier.load (a : ModelArtifact) : LeaseClauseClassifier :=
  ⟨a.kernel, a.C, a.gamma, a.max_features, FitState.fitted a.pipeline a.classes_⟩

/-- The classes_ attribute as observable on an instance. -/
def LeaseClauseClassifier.classesOf (m : LeaseClauseClassifier) : Option (List Str) :=
  match m.state with
  | FitState.unfitted => none
  | FitState.fitted _ cs => some cs

/-- A concrete fitted pipeline over two classes, used to witness the
classifier theorems on concrete instances. -/
def examplePipeline : FittedPipeline :=
  ⟨["pets".data, "rent_payment".data],
   fun _ => [(1 : ℚ)/4, (3 : ℚ)/4],
   by decide, by decide, fun _ => rfl⟩

/-- A concrete fitted classifier instance. -/
def exampleFitted : LeaseClauseClassifier :=
  ⟨"rbf".data, 1, Sum.inl ("scale".data), 5000,
   FitState.fitted examplePipeline examplePipeline.classes⟩

/-- The artifact written by exampleFitted.save. -/
def exampleArtifact : ModelArtifact :=
  ⟨examplePipeline, examplePipeline.classes, "rbf".data, 1, Sum.inl ("scale".data), 5000⟩

/-- Every newline of the string is immediately followed by a character of
the keep class of normalization step 2 (in particular no trailing newline
and no two adjacent newlines).  Step 2 establishes this invariant and the
later steps preserve it. -/
def nlOk : Str → Bool
  | [] => true
  | c :: rest =>
    (if c = '\n' then
      match rest.head? with
      | some d => keepAfterNl d
      | none => false
     else true) && nlOk rest

/-- The string is nonempty and its first character is in the keep class. -/
def headKeep (s : Str) : Bool :=
  match s.head? with
  | some d => keepAfterNl d
  | none => false

/-- Shape of every line emitted by the line-joining pass: nonempty, equal to
its own strip, free of newlines and free of double spaces. -/
def GoodPiece (s : Str) : Prop :=
  s ≠ [] ∧ pyStrip s = s ∧ '\n' ∉ s ∧ hasSeq ' ' ' ' s = false

/-- Every element except the last ends in sentence punctuation. -/
def chainPunct : List Str → Prop
  | [] => True
  | [_] => True
  | a :: b :: r => endsPunct a = true ∧ chainPunct (b :: r)

/-- The input of end-to-end scenario 1 of the spec. -/
def scenario1Input : Str :=
  "1. Rent shall be due monthly.\n\nThis is a long enough sentence about pets being disallowed on premises.".data

/-- What the code actually returns on scenario 1: the paragraph break is
destroyed by normalization, the single surviving paragraph starts with the
section marker 1., and the whole text becomes one clause. -/
def scenario1Merged : Str :=
  "1. Rent shall be due monthly.\nThis is a long enough sentence about pets being disallowed on premises.".data

theorem keep_not_space {c : Char} (h : keepAfterNl c = true) : pySpace c = false := by
  unfold keepAfterNl at h
  unfold pySpace
  simp only [decide_eq_true_eq] at h
  simp only [decide_eq_false_iff_not]
  omega

theorem keep_ne_nl {c : Char} (h : keepAfterNl c = true) : c ≠ '\n' := by
  intro he
  subst he
  exact absurd h (by decide)

theorem keep_ne_sp {c : Char} (h : keepAfterNl c = true) : c ≠ ' ' := by
  intro he
  subst he
  exact absurd h (by decide)

theorem punct_ne_hyphen {c : Char} (h : isPunctEnd c = true) : c ≠ '-' := by
  intro he
  subst he
  exact absurd h (by decide)

theorem punct_not_space {c : Char} (h : isPunctEnd c = true) : pySpace c = false := by
  unfold isPunctEnd at h
  unfold pySpace
  simp only [decide_eq_true_eq] at h
  simp only [decide_eq_false_iff_not]
  omega

theorem hasSeq_tail {a b c : Char} {l : Str} (h : hasSeq a b (c :: l) = false) :
    hasSeq a b l = false := by
  cases l with
  | nil => rfl
  | cons d r =>
    simp only [hasSeq, Bool.or_eq_false_iff] at h
    exact h.2

theorem hasSeq_head {a b c : Char} {l : Str} (h : hasSeq a b (c :: l) = false)
    (hc : c = a) : l.head? ≠ some b := by
  cases l with
  | nil => simp
  | cons d r =>
    simp only [hasSeq, Bool.or_eq_false_iff, Bool.and_eq_false_iff,
      decide_eq_false_iff_not] at h
    simp only [List.head?_cons, ne_eq, Option.some.injEq]
    rcases h.1 with h1 | h1
    · exact absurd hc h1
    · exact h1

theorem hasSeq_cons_of {a b c : Char} {l : Str} (h : hasSeq a b l = false)
    (hc : c ≠ a ∨ l.head? ≠ some b) : hasSeq a b (c :: l) = false := by
  cases l with
  | nil => rfl
  | cons d r =>
    simp only [hasSeq, Bool.or_eq_false_iff, Bool.and_eq_false_iff,
      decide_eq_false_iff_not]
    refine ⟨?_, h⟩
    rcases hc with hc | hc
    · exact Or.inl hc
    · right
      intro he
      exact hc (by simp [he])

theorem hasSeq_false_of_not_mem_left {a b : Char} {l : Str} (h : a ∉ l) :
    hasSeq a b l = false := by
  induction l with
  | nil => rfl
  | cons c r ih =>
    apply hasSeq_cons_of (ih (fun hm => h (List.mem_cons_of_mem _ hm)))
    left
    intro he
    exact h (he ▸ List.mem_cons_self _ _)

theorem hasSeq_false_of_not_mem_right {a b : Char} {l : Str} (h : b ∉ l) :
    hasSeq a b l = false := by
  induction l with
  | nil => rfl
  | cons c r ih =>
    apply hasSeq_cons_of (ih (fun hm => h (List.mem_cons_of_mem _ hm)))
    right
    intro he
    cases r with
    | nil => simp at he
    | cons d r' =>
      simp only [List.head?_cons, Option.some.injEq] at he
      exact h (by simp [he])

theorem getLast?_cons_ne_nil {c : Char} {t : Str} (h : t ≠ []) :
    (c :: t).getLast? = t.getLast? := by
  cases t with
  | nil => exact absurd rfl h
  | cons d r => exact List.getLast?_cons_cons

theorem getLast?_append_ne_nil {x y : Str} (h : y ≠ []) :
    (x ++ y).getLast? = y.getLast? := by
  induction x with
  | nil => rfl
  | cons c x ih =>
    rw [List.cons_append, getLast?_cons_ne_nil, ih]
    intro he
    rcases List.append_eq_nil.mp he with ⟨_, h2⟩
    exact h h2

theorem getLast?_some_of_ne_nil {l : Str} (h : l ≠ []) : ∃ c, l.getLast? = some c := by
  induction l with
  | nil => exact absurd rfl h
  | cons c r ih =>
    cases r with
    | nil => exact ⟨c, rfl⟩
    | cons d r' =>
      rcases ih (by simp) with ⟨e, he⟩
      exact ⟨e, by rw [List.getLast?_cons_cons]; exact he⟩

theorem head?_some_of_ne_nil {l : Str} (h : l ≠ []) : ∃ c, l.head? = some c := by
  cases l with
  | nil => exact absurd rfl h
  | cons c r => exact ⟨c, rfl⟩

theorem hasSeq_append_false {a b : Char} {x y : Str}
    (hx : hasSeq a b x = false) (hy : hasSeq a b y = false)
    (hb : ¬(x.getLast? = some a ∧ y.head? = some b)) :
    hasSeq a b (x ++ y) = false := by
  induction x with
  | nil => simpa using hy
  | cons c x ih =>
    cases x with
    | nil =>
      rw [List.singleton_append]
      apply hasSeq_cons_of hy
      by_cases hc : c = a
      · right
        intro hh
        exact hb ⟨by simp [hc], hh⟩
      · left
        exact hc
    | cons d x' =>
      rw [List.cons_append]
      apply hasSeq_cons_of (ih (hasSeq_tail hx)
        (by rw [List.getLast?_cons_cons] at hb; exact hb))
      by_cases hc : c = a
      · right
        rw [List.cons_append, List.head?_cons]
        have hd := hasSeq_head hx hc
        simp only [List.head?_cons, ne_eq] at hd
        exact hd
      · left
        exact hc

theorem dropWhile_head_false {p : Char → Bool} {l : Str} {c : Char}
    (h : (l.dropWhile p).head? = some c) : p c = false := by
  induction l with
  | nil => simp [List.dropWhile] at h
  | cons d r ih =>
    rw [List.dropWhile_cons] at h
    by_cases hd : p d
    · rw [if_pos hd] at h
      exact ih h
    · rw [if_neg hd] at h
      simp only [List.head?_cons, Option.some.injEq] at h
      subst h
      exact Bool.eq_false_iff.mpr hd

theorem dropWhile_eq_self_of_head {p : Char → Bool} {l : Str} {c : Char}
    (h : l.head? = some c) (hc : p c = false) : l.dropWhile p = l := by
  cases l with
  | nil => rfl
  | cons d r =>
    simp only [List.head?_cons, Option.some.injEq] at h
    subst h
    rw [List.dropWhile_cons, if_neg (by simp [hc])]

theorem mem_dropWhile {p : Char → Bool} {l : Str} {c : Char}
    (h : c ∈ l.dropWhile p) : c ∈ l := by
  induction l with
  | nil => simp [List.dropWhile] at h
  | cons d r ih =>
    rw [List.dropWhile_cons] at h
    by_cases hd : p d
    · rw [if_pos hd] at h
      exact List.mem_cons_of_mem _ (ih h)
    · rw [if_neg hd] at h
      exact h

theorem hasSeq_dropWhile_false {a b : Char} {p : Char → Bool} {l : Str}
    (h : hasSeq a b l = false) : hasSeq a b (l.dropWhile p) = false := by
  induction l with
  | nil => exact h
  | cons d r ih =>
    rw [List.dropWhile_cons]
    by_cases hd : p d
    · rw [if_pos hd]
      exact ih (hasSeq_tail h)
    · rw [if_neg hd]
      exact h

theorem rstripP_cons (c : Char) (rest : Str) :
    rstripP (c :: rest) = if rstripP rest = [] ∧ pySpace c then [] else c :: rstripP rest := rfl

theorem rstripP_head? (l : Str) : rstripP l = [] ∨ (rstripP l).head? = l.head? := by
  cases l with
  | nil => exact Or.inl rfl
  | cons c r =>
    rw [rstripP_cons]
    split
    · exact Or.inl rfl
    · exact Or.inr rfl

theorem rstripP_getLast_not_space (l : Str) :
    rstripP l = [] ∨ ∃ c, (rstripP l).getLast? = some c ∧ pySpace c = false := by
  induction l with
  | nil => exact Or.inl rfl
  | cons c r ih =>
    rw [rstripP_cons]
    split
    case isTrue h => exact Or.inl rfl
    case isFalse h =>
      right
      rcases ih with hr | ⟨d, hd, hds⟩
      · refine ⟨c, ?_, ?_⟩
        · rw [hr]
          rfl
        · by_contra hc
          simp only [Bool.not_eq_false] at hc
          exact h ⟨hr, hc⟩
      · have hne : rstripP r ≠ [] := by
          intro he
          rw [he] at hd
          simp at hd
        exact ⟨d, by rw [getLast?_cons_ne_nil hne]; exact hd, hds⟩

theorem rstripP_eq_self {l : Str} {c : Char} (h : l.getLast? = some c)
    (hc : pySpace c = false) : rstripP l = l := by
  induction l with
  | nil => rfl
  | cons d r ih =>
    cases r with
    | nil =>
      simp only [List.getLast?_singleton, Option.some.injEq] at h
      subst h
      rw [rstripP_cons, if_neg]
      · rfl
      · rintro ⟨-, h2⟩
        rw [hc] at h2
        exact absurd h2 (by simp)
    | cons e r' =>
      rw [List.getLast?_cons_cons] at h
      have hr := ih h
      rw [rstripP_cons, if_neg, hr]
      rw [hr]
      rintro ⟨h1, -⟩
      exact absurd h1 (by simp)

theorem rstripP_ne_nil_of_mem {l : Str} {c : Char} (hm : c ∈ l) (hc : pySpace c = false) :
    rstripP l ≠ [] := by
  induction l with
  | nil => simp at hm
  | cons d r ih =>
    rw [rstripP_cons]
    split
    case isTrue h =>
      exfalso
      rcases List.mem_cons.mp hm with rfl | hm'
      · rw [hc] at h
        exact absurd h.2 (by simp)
      · exact ih hm' h.1
    case isFalse h => simp

theorem mem_rstripP {l : Str} {c : Char} (h : c ∈ rstripP l) : c ∈ l := by
  induction l with
  | nil => simp [rstripP] at h
  | cons d r ih =>
    rw [rstripP_cons] at h
    split at h
    · simp at h
    · rcases List.mem_cons.mp h with rfl | h'
      · exact List.mem_cons_self _ _
      · exact List.mem_cons_of_mem _ (ih h')

theorem hasSeq_rstripP_false {a b : Char} {l : Str} (h : hasSeq a b l = false) :
    hasSeq a b (rstripP l) = false := by
  induction l with
  | nil => exact h
  | cons c r ih =>
    rw [rstripP_cons]
    split
    · rfl
    · apply hasSeq_cons_of (ih (hasSeq_tail h))
      by_cases hc : c = a
      · right
        rcases rstripP_head? r with h0 | h0
        · rw [h0]
          simp
        · rw [h0]
          exact hasSeq_head h hc
      · left
        exact hc

theorem pyStrip_head_not_space {l : Str} {c : Char} (h : (pyStrip l).head? = some c) :
    pySpace c = false := by
  unfold pyStrip at h
  have hne : rstripP (l.dropWhile pySpace) ≠ [] := by
    intro he
    rw [he] at h
    simp at h
  rcases rstripP_head? (l.dropWhile pySpace) with h0 | h0
  · exact absurd h0 hne
  · rw [h0] at h
    exact dropWhile_head_false h

theorem pyStrip_getLast_not_space {l : Str} {c : Char} (h : (pyStrip l).getLast? = some c) :
    pySpace c = false := by
  unfold pyStrip at h
  rcases rstripP_getLast_not_space (l.dropWhile pySpace) with h0 | ⟨d, hd, hds⟩
  · rw [h0] at h
    simp at h
  · rw [hd] at h
    simp only [Option.some.injEq] at h
    exact h ▸ hds

theorem pyStrip_eq_self {l : Str} {c d : Char} (h1 : l.head? = some c) (hc : pySpace c = false)
    (h2 : l.getLast? = some d) (hd : pySpace d = false) : pyStrip l = l := by
  unfold pyStrip
  rw [dropWhile_eq_self_of_head h1 hc]
  exact rstripP_eq_self h2 hd

theorem pyStrip_idem (l : Str) : pyStrip (pyStrip l) = pyStrip l := by
  by_cases he : pyStrip l = []
  · rw [he]
    rfl
  · rcases head?_some_of_ne_nil he with ⟨c, hc⟩
    rcases getLast?_some_of_ne_nil he with ⟨d, hd⟩
    exact pyStrip_eq_self hc (pyStrip_head_not_space hc) hd (pyStrip_getLast_not_space hd)

theorem mem_pyStrip {l : Str} {c : Char} (h : c ∈ pyStrip l) : c ∈ l :=
  mem_dropWhile (mem_rstripP h)

theorem hasSeq_pyStrip_false {a b : Char} {l : Str} (h : hasSeq a b l = false) :
    hasSeq a b (pyStrip l) = false :=
  hasSeq_rstripP_false (hasSeq_dropWhile_false h)

theorem pyStrip_of_headKeep {l : Str} (h : headKeep l = true) :
    pyStrip l ≠ [] ∧ (pyStrip l).head? = l.head? := by
  cases l with
  | nil => simp [headKeep] at h
  | cons c r =>
    have hk : keepAfterNl c = true := by simpa [headKeep] using h
    have hs := keep_not_space hk
    have hdw : (c :: r).dropWhile pySpace = c :: r :=
      dropWhile_eq_self_of_head rfl hs
    unfold pyStrip
    rw [hdw]
    have hne : rstripP (c :: r) ≠ [] := rstripP_ne_nil_of_mem (List.mem_cons_self c r) hs
    refine ⟨hne, ?_⟩
    rcases rstripP_head? (c :: r) with h0 | h0
    · exact absurd h0 hne
    · exact h0

theorem endsPunct_eq_of_getLast {l : Str} {c : Char} (h : l.getLast? = some c)
    (hc : pySpace c = false) : endsPunct l = isPunctEnd c := by
  unfold endsPunct
  rw [rstripP_eq_self h hc, h]

theorem nlOk_tail {c : Char} {rest : Str} (h : nlOk (c :: rest) = true) : nlOk rest = true := by
  unfold nlOk at h
  simp only [Bool.and_eq_true] at h
  exact h.2

theorem nlOk_nl_head {rest : Str} (h : nlOk ('\n' :: rest) = true) :
    ∃ d r, rest = d :: r ∧ keepAfterNl d = true := by
  cases rest with
  | nil =>
    unfold nlOk at h
    rw [if_pos rfl] at h
    simp at h
  | cons d r =>
    unfold nlOk at h
    rw [if_pos rfl] at h
    simp only [Bool.and_eq_true] at h
    exact ⟨d, r, rfl, by simpa using h.1⟩

theorem nlOk_cons_keep {c : Char} {rest : Str} (hne : c ≠ '\n') (h : nlOk rest = true) :
    nlOk (c :: rest) = true := by
  unfold nlOk
  rw [if_neg hne]
  simpa using h

theorem nlOk_cons_nl_keep {d : Char} {r : Str} (hd : keepAfterNl d = true)
    (h : nlOk (d :: r) = true) : nlOk ('\n' :: d :: r) = true := by
  unfold nlOk
  rw [if_pos rfl]
  simp only [List.head?_cons, Bool.and_eq_true]
  exact ⟨hd, h⟩

theorem sub2_head {l : Str} {c : Char} (h : l.head? = some c) (hc : c ≠ '\n') :
    (sub2 l).head? = some c := by
  cases l with
  | nil => simp at h
  | cons d r =>
    simp only [List.head?_cons, Option.some.injEq] at h
    subst h
    unfold sub2
    rw [if_neg hc]
    rfl

theorem nlOk_sub2 (l : Str) : nlOk (sub2 l) = true := by
  induction l with
  | nil => rfl
  | cons c rest ih =>
    unfold sub2
    by_cases hc : c = '\n'
    · rw [if_pos hc]
      cases hr : rest.head? with
      | none =>
        simp only [hr]
        exact nlOk_cons_keep (by decide) ih
      | some d =>
        by_cases hd : keepAfterNl d
        · simp only [hr, hd, if_true]
          have hdn := keep_ne_nl hd
          have h2 := sub2_head hr hdn
          cases hsr : sub2 rest with
          | nil =>
            rw [hsr] at h2
            simp at h2
          | cons e s =>
            rw [hsr] at h2 ih
            simp only [List.head?_cons, Option.some.injEq] at h2
            subst h2
            exact nlOk_cons_nl_keep hd ih
        · simp only [hr, hd, if_false]
          exact nlOk_cons_keep (by decide) ih
    · rw [if_neg hc]
      exact nlOk_cons_keep hc ih

theorem sub3go_head {b : Bool} {l : Str} {c : Char} (h : l.head? = some c) (hc : c ≠ ' ') :
    (sub3go b l).head? = some c := by
  cases l with
  | nil => simp at h
  | cons d r =>
    simp only [List.head?_cons, Option.some.injEq] at h
    subst h
    unfold sub3go
    rw [if_neg hc]
    rfl

theorem nlOk_sub3go {l : Str} (h : nlOk l = true) : ∀ b, nlOk (sub3go b l) = true := by
  induction l with
  | nil => intro b; rfl
  | cons c rest ih =>
    intro b
    unfold sub3go
    by_cases hc : c = ' '
    · rw [if_pos hc]
      cases b with
      | true => exact ih (nlOk_tail h) true
      | false =>
        simp only [Bool.false_eq_true, if_false]
        exact nlOk_cons_keep (by decide) (ih (nlOk_tail h) true)
    · rw [if_neg hc]
      by_cases hn : c = '\n'
      · subst hn
        rcases nlOk_nl_head h with ⟨d, r, hrest, hd⟩
        subst hrest
        have h2 : (sub3go false (d :: r)).head? = some d :=
          @sub3go_head false (d :: r) d rfl (keep_ne_sp hd)
        have ih2 := ih (nlOk_tail h) false
        cases hsr : sub3go false (d :: r) with
        | nil =>
          rw [hsr] at h2
          simp at h2
        | cons e s =>
          rw [hsr] at h2 ih2
          simp only [List.head?_cons, Option.some.injEq] at h2
          subst h2
          exact nlOk_cons_nl_keep hd ih2
      · exact nlOk_cons_keep hn (ih (nlOk_tail h) false)

theorem filter_nl_nil {run : Str} (h : '\n' ∉ run) :
    run.filter (fun c => decide (c = '\n')) = [] := by
  induction run with
  | nil => rfl
  | cons c r ih =>
    have hc : ¬(c = '\n') := fun he => h (he ▸ List.mem_cons_self c r)
    rw [List.filter_cons]
    simp only [decide_eq_false hc, Bool.false_eq_true, if_false]
    exact ih (fun hm => h (List.mem_cons_of_mem _ hm))

theorem flushRun_eq_self {run : Str} (h : '\n' ∉ run) : flushRun run = run := by
  unfold flushRun
  rw [if_neg]
  rw [filter_nl_nil h]
  simp

theorem flushRun_single_nl {run : Str} (h : '\n' ∉ run) :
    flushRun (run ++ ['\n']) = run ++ ['\n'] := by
  unfold flushRun
  rw [if_neg]
  rw [List.filter_append, filter_nl_nil h]
  simp

theorem sub4go_eq_of_nlOk :
    ∀ n (l : Str), l.length ≤ n → nlOk l = true →
      ∀ run : Str, '\n' ∉ run → sub4go run l = run ++ l := by
  intro n
  induction n with
  | zero =>
    intro l hl _ run hr
    have hnil : l = [] := List.length_eq_zero.mp (Nat.le_zero.mp hl)
    subst hnil
    unfold sub4go
    rw [flushRun_eq_self hr]
    simp
  | succ n ih =>
    intro l hl h run hr
    cases l with
    | nil =>
      unfold sub4go
      rw [flushRun_eq_self hr]
      simp
    | cons c rest =>
      simp only [List.length_cons, Nat.succ_le_succ_iff] at hl
      unfold sub4go
      by_cases hs : pySpace c
      · rw [if_pos hs]
        by_cases hc : c = '\n'
        · subst hc
          rcases nlOk_nl_head h with ⟨d, r, hrest, hd⟩
          subst hrest
          unfold sub4go
          rw [if_neg (by rw [keep_not_space hd]; simp)]
          rw [flushRun_single_nl hr]
          have hrr : nlOk r = true := nlOk_tail (nlOk_tail h)
          rw [ih r (by simp at hl; omega) hrr [] (by simp)]
          simp
        · have hr2 : '\n' ∉ run ++ [c] := by
            intro hm
            rcases List.mem_append.mp hm with hm | hm
            · exact hr hm
            · simp only [List.mem_singleton] at hm
              exact hc hm.symm
          rw [ih rest hl (nlOk_tail h) (run ++ [c]) hr2]
          simp
      · rw [if_neg hs]
        rw [flushRun_eq_self hr]
        rw [ih rest hl (nlOk_tail h) [] (by simp)]
        simp

theorem sub4_eq_of_nlOk {l : Str} (h : nlOk l = true) : sub4 l = l := by
  have hh := sub4go_eq_of_nlOk l.length l le_rfl h [] (by simp)
  simpa [sub4] using hh

theorem sub2_eq_of_nlOk {l : Str} (h : nlOk l = true) : sub2 l = l := by
  induction l with
  | nil => rfl
  | cons c rest ih =>
    unfold sub2
    by_cases hc : c = '\n'
    · subst hc
      rcases nlOk_nl_head h with ⟨d, r, hrest, hd⟩
      subst hrest
      rw [if_pos rfl]
      simp only [List.head?_cons, hd, if_true]
      rw [ih (nlOk_tail h)]
    · rw [if_neg hc, ih (nlOk_tail h)]

theorem sub3go_eq_of_noDbl (l : Str) (h : hasSeq ' ' ' ' l = false) :
    sub3go false l = l ∧ (l.head? ≠ some ' ' → sub3go true l = l) := by
  induction l with
  | nil => exact ⟨rfl, fun _ => rfl⟩
  | cons c rest ih =>
    rcases ih (hasSeq_tail h) with ⟨hP, hQ⟩
    constructor
    · unfold sub3go
      by_cases hc : c = ' '
      · subst hc
        rw [if_pos rfl]
        simp only [Bool.false_eq_true, if_false]
        rw [hQ (hasSeq_head h rfl)]
      · rw [if_neg hc, hP]
    · intro hh
      have hc : c ≠ ' ' := by
        intro he
        exact hh (by subst he; rfl)
      unfold sub3go
      rw [if_neg hc, hP]

theorem sub3_eq_of_noDbl {l : Str} (h : hasSeq ' ' ' ' l = false) : sub3 l = l :=
  (sub3go_eq_of_noDbl l h).1

theorem sub1_eq_of_noHyphNl {l : Str} (h : hasSeq '-' '\n' l = false) : sub1 l = l := by
  suffices H : ∀ n (l : Str), l.length ≤ n → hasSeq '-' '\n' l = false → sub1 l = l from
    H l.length l le_rfl h
  intro n
  induction n with
  | zero =>
    intro l hl _
    have hnil : l = [] := List.length_eq_zero.mp (Nat.le_zero.mp hl)
    subst hnil
    rfl
  | succ n ih =>
    intro l hl h
    cases l with
    | nil => rfl
    | cons c rest =>
      cases rest with
      | nil => rfl
      | cons d r =>
        unfold sub1
        rw [if_neg]
        · simp only [List.length_cons, Nat.succ_le_succ_iff] at hl
          rw [ih (d :: r) (by simp; omega) (hasSeq_tail h)]
        · rintro ⟨hc, hd⟩
          have := hasSeq_head h hc
          simp only [List.head?_cons, ne_eq, Option.some.injEq] at this
          exact this hd

theorem sub3go_true_head_ne_sp (l : Str) : (sub3go true l).head? ≠ some ' ' := by
  induction l with
  | nil => simp [sub3go]
  | cons c rest ih =>
    unfold sub3go
    by_cases hc : c = ' '
    · rw [if_pos hc]
      simpa using ih
    · rw [if_neg hc]
      simp only [List.head?_cons, ne_eq, Option.some.injEq]
      exact hc

theorem sub3go_noDbl (l : Str) : ∀ b, hasSeq ' ' ' ' (sub3go b l) = false := by
  induction l with
  | nil => intro b; rfl
  | cons c rest ih =>
    intro b
    unfold sub3go
    by_cases hc : c = ' '
    · rw [if_pos hc]
      cases b with
      | true => exact ih true
      | false =>
        simp only [Bool.false_eq_true, if_false]
        exact hasSeq_cons_of (ih true) (Or.inr (sub3go_true_head_ne_sp rest))
    · rw [if_neg hc]
      exact hasSeq_cons_of (ih false) (Or.inl hc)

theorem consHead_ne_nil {c : Char} {ls : List Str} : consHead c ls ≠ [] := by
  cases ls with
  | nil => simp [consHead]
  | cons s ss => simp [consHead]

theorem splitNl_ne_nil (l : Str) : splitNl l ≠ [] := by
  cases l with
  | nil => simp [splitNl]
  | cons c rest =>
    unfold splitNl
    by_cases hc : c = '\n'
    · rw [if_pos hc]
      simp
    · rw [if_neg hc]
      exact consHead_ne_nil

theorem splitNl_cons_ne {c : Char} {rest : Str} (hc : c ≠ '\n') :
    ∃ s ss, splitNl rest = s :: ss ∧ splitNl (c :: rest) = (c :: s) :: ss := by
  cases hs : splitNl rest with
  | nil => exact absurd hs (splitNl_ne_nil rest)
  | cons s ss =>
    refine ⟨s, ss, rfl, ?_⟩
    unfold splitNl
    rw [if_neg hc, hs]
    rfl

theorem splitNl_no_nl : ∀ (l : Str), ∀ s ∈ splitNl l, '\n' ∉ s := by
  intro l
  induction l with
  | nil =>
    intro s hs
    simp only [splitNl, List.mem_singleton] at hs
    subst hs
    simp
  | cons c rest ih =>
    intro s hs
    by_cases hc : c = '\n'
    · unfold splitNl at hs
      rw [if_pos hc] at hs
      rcases List.mem_cons.mp hs with rfl | hs'
      · simp
      · exact ih s hs'
    · rcases splitNl_cons_ne hc with ⟨s0, ss, h0, h1⟩
      rw [h1] at hs
      rcases List.mem_cons.mp hs with rfl | hs'
      · intro hm
        rcases List.mem_cons.mp hm with he | hm'
        · exact hc he.symm
        · exact ih s0 (h0 ▸ List.mem_cons_self s0 ss) hm'
      · exact ih s (h0 ▸ List.mem_cons_of_mem s0 hs')

theorem splitNl_keep : ∀ (l : Str), nlOk l = true →
    (∀ s ∈ (splitNl l).tail, headKeep s = true) ∧
    (headKeep l = true → ∀ s ∈ splitNl l, headKeep s = true) := by
  intro l
  induction l with
  | nil =>
    intro _
    constructor
    · intro s hs
      simp [splitNl] at hs
    · intro hk
      simp [headKeep] at hk
  | cons c rest ih =>
    intro h
    have htl := nlOk_tail h
    by_cases hc : c = '\n'
    · subst hc
      rcases nlOk_nl_head h with ⟨d, r, hrest, hd⟩
      have hkrest : headKeep rest = true := by
        rw [hrest]
        simpa [headKeep] using hd
      have hall := (ih htl).2 hkrest
      constructor
      · intro s hs
        unfold splitNl at hs
        rw [if_pos rfl] at hs
        simp only [List.tail_cons] at hs
        exact hall s hs
      · intro hk
        have hco : keepAfterNl '\n' = true := by simpa [headKeep] using hk
        exact absurd hco (by decide)
    · rcases splitNl_cons_ne hc with ⟨s0, ss, h0, h1⟩
      constructor
      · intro s hs
        rw [h1] at hs
        simp only [List.tail_cons] at hs
        exact (ih htl).1 s (by rw [h0]; exact hs)
      · intro hk
        intro s hs
        rw [h1] at hs
        rcases List.mem_cons.mp hs with rfl | hs'
        · simpa [headKeep] using hk
        · exact (ih htl).1 s (by rw [h0]; exact hs')

theorem splitNl_hasSeq {a b : Char} :
    ∀ (l : Str), hasSeq a b l = false → ∀ s ∈ splitNl l, hasSeq a b s = false := by
  intro l
  induction l with
  | nil =>
    intro _ s hs
    simp only [splitNl, List.mem_singleton] at hs
    subst hs
    rfl
  | cons c rest ih =>
    intro h s hs
    by_cases hc : c = '\n'
    · unfold splitNl at hs
      rw [if_pos hc] at hs
      rcases List.mem_cons.mp hs with rfl | hs'
      · rfl
      · exact ih (hasSeq_tail h) s hs'
    · rcases splitNl_cons_ne hc with ⟨s0, ss, h0, h1⟩
      rw [h1] at hs
      rcases List.mem_cons.mp hs with rfl | hs'
      · apply hasSeq_cons_of (ih (hasSeq_tail h) s0 (h0 ▸ List.mem_cons_self s0 ss))
        by_cases hca : c = a
        · right
          have hhd := hasSeq_head h hca
          cases rest with
          | nil =>
            have : splitNl ([] : Str) = [[]] := rfl
            rw [this] at h0
            cases h0
            simp
          | cons e r2 =>
            by_cases he : e = '\n'
            · subst he
              have h2 : splitNl ('\n' :: r2) = [] :: splitNl r2 := rfl
              rw [h2] at h0
              cases h0
              simp
            · rcases splitNl_cons_ne he with ⟨t0, ts, ht0, ht1⟩
              rw [ht1] at h0
              cases h0
              simpa using hhd
        · left
          exact hca
      · exact ih (hasSeq_tail h) s (h0 ▸ List.mem_cons_of_mem s0 hs')

theorem splitNl_singleton {s : Str} (h : '\n' ∉ s) : splitNl s = [s] := by
  induction s with
  | nil => rfl
  | cons c r ih =>
    have hc : c ≠ '\n' := fun he => h (he ▸ List.mem_cons_self c r)
    rcases splitNl_cons_ne hc with ⟨s0, ss, h0, h1⟩
    rw [ih (fun hm => h (List.mem_cons_of_mem _ hm))] at h0
    cases h0
    exact h1

theorem splitNl_append_nl {s r : Str} (h : '\n' ∉ s) :
    splitNl (s ++ '\n' :: r) = s :: splitNl r := by
  induction s with
  | nil =>
    rw [List.nil_append]
    rfl
  | cons c s' ih =>
    have hc : c ≠ '\n' := fun he => h (he ▸ List.mem_cons_self c s')
    rw [List.cons_append]
    rcases @splitNl_cons_ne c (s' ++ '\n' :: r) hc with ⟨s0, ss, h0, h1⟩
    rw [ih (fun hm => h (List.mem_cons_of_mem _ hm))] at h0
    cases h0
    exact h1

theorem splitNl_joinNl : ∀ (ls : List Str), ls ≠ [] → (∀ s ∈ ls, '\n' ∉ s) →
    splitNl (joinNl ls) = ls := by
  intro ls
  induction ls with
  | nil => intro h; exact absurd rfl h
  | cons s rest ih =>
    intro _ hnl
    cases rest with
    | nil => exact splitNl_singleton (hnl s (List.mem_cons_self s []))
    | cons s2 r2 =>
      show splitNl (s ++ '\n' :: joinNl (s2 :: r2)) = s :: s2 :: r2
      rw [splitNl_append_nl (hnl s (List.mem_cons_self _ _))]
      rw [ih (by simp) (fun u hu => hnl u (List.mem_cons_of_mem _ hu))]

theorem head?_append_ne_nil {x y : Str} (h : x ≠ []) : (x ++ y).head? = x.head? := by
  cases x with
  | nil => exact absurd rfl h
  | cons c r => rfl

theorem getLast?_mem_self {l : Str} {c : Char} (h : l.getLast? = some c) : c ∈ l := by
  induction l with
  | nil => simp at h
  | cons d r ih =>
    cases r with
    | nil =>
      simp only [List.getLast?_singleton, Option.some.injEq] at h
      simp [h]
    | cons e r' =>
      rw [List.getLast?_cons_cons] at h
      exact List.mem_cons_of_mem _ (ih h)

theorem joinNl_head? {s : Str} {r : List Str} (h : s ≠ []) :
    (joinNl (s :: r)).head? = s.head? := by
  cases r with
  | nil => rfl
  | cons s2 r2 =>
    show (s ++ '\n' :: joinNl (s2 :: r2)).head? = s.head?
    exact head?_append_ne_nil h

theorem joinNl_hasSeq_sp {ls : List Str} (h : ∀ s ∈ ls, hasSeq ' ' ' ' s = false) :
    hasSeq ' ' ' ' (joinNl ls) = false := by
  induction ls with
  | nil => rfl
  | cons s rest ih =>
    cases rest with
    | nil => exact h s (List.mem_cons_self s [])
    | cons s2 r2 =>
      show hasSeq ' ' ' ' (s ++ '\n' :: joinNl (s2 :: r2)) = false
      apply hasSeq_append_false (h s (List.mem_cons_self _ _))
      · apply hasSeq_cons_of (ih (fun u hu => h u (List.mem_cons_of_mem _ hu)))
        left
        decide
      · rintro ⟨-, h2⟩
        simp only [List.head?_cons, Option.some.injEq] at h2
        exact absurd h2 (by decide)

theorem joinNl_hasDblNl {ls : List Str} (h : ∀ s ∈ ls, s ≠ [] ∧ '\n' ∉ s) :
    hasSeq '\n' '\n' (joinNl ls) = false := by
  induction ls with
  | nil => rfl
  | cons s rest ih =>
    cases rest with
    | nil => exact hasSeq_false_of_not_mem_left (h s (List.mem_cons_self s [])).2
    | cons s2 r2 =>
      show hasSeq '\n' '\n' (s ++ '\n' :: joinNl (s2 :: r2)) = false
      apply hasSeq_append_false (hasSeq_false_of_not_mem_left (h s (List.mem_cons_self _ _)).2)
      · apply hasSeq_cons_of (ih (fun u hu => h u (List.mem_cons_of_mem _ hu)))
        right
        rw [joinNl_head? (h s2 (List.mem_cons_of_mem _ (List.mem_cons_self _ _))).1]
        intro hh
        exact (h s2 (List.mem_cons_of_mem _ (List.mem_cons_self _ _))).2
          (by cases s2 with
              | nil => simp at hh
              | cons e r' =>
                simp only [List.head?_cons, Option.some.injEq] at hh
                simp [hh])
      · rintro ⟨h1, -⟩
        exact (h s (List.mem_cons_self _ _)).2 (getLast?_mem_self h1)

theorem nlOk_of_no_nl {l : Str} (h : '\n' ∉ l) : nlOk l = true := by
  induction l with
  | nil => rfl
  | cons c r ih =>
    exact nlOk_cons_keep (fun he => h (he ▸ List.mem_cons_self c r))
      (ih (fun hm => h (List.mem_cons_of_mem _ hm)))

theorem nlOk_append_no_nl {s r : Str} (hs : '\n' ∉ s) (hr : nlOk r = true) :
    nlOk (s ++ r) = true := by
  induction s with
  | nil => exact hr
  | cons c s' ih =>
    rw [List.cons_append]
    exact nlOk_cons_keep (fun he => hs (he ▸ List.mem_cons_self c s'))
      (ih (fun hm => hs (List.mem_cons_of_mem _ hm)))

theorem joinNl_nlOk {ls : List Str} (h : ∀ s ∈ ls, s ≠ [] ∧ '\n' ∉ s)
    (hk : ∀ s ∈ ls.tail, headKeep s = true) : nlOk (joinNl ls) = true := by
  induction ls with
  | nil => rfl
  | cons s rest ih =>
    cases rest with
    | nil => exact nlOk_of_no_nl (h s (List.mem_cons_self s [])).2
    | cons s2 r2 =>
      show nlOk (s ++ '\n' :: joinNl (s2 :: r2)) = true
      apply nlOk_append_no_nl (h s (List.mem_cons_self _ _)).2
      have hs2 := h s2 (List.mem_cons_of_mem _ (List.mem_cons_self _ _))
      have hk2 : headKeep s2 = true := hk s2 (by simp)
      have hJ : nlOk (joinNl (s2 :: r2)) = true := by
        apply ih (fun u hu => h u (List.mem_cons_of_mem _ hu))
        intro u hu
        exact hk u (by simp only [List.tail_cons]; exact List.mem_cons_of_mem _ hu)
      have hhd : (joinNl (s2 :: r2)).head? = s2.head? := joinNl_head? hs2.1
      cases s2 with
      | nil => exact absurd rfl hs2.1
      | cons d r' =>
        have hd : keepAfterNl d = true := by simpa [headKeep] using hk2
        cases hJs : joinNl ((d :: r') :: r2) with
        | nil =>
          rw [hJs] at hhd
          simp at hhd
        | cons e J' =>
          rw [hJs] at hhd hJ
          simp only [List.head?_cons, Option.some.injEq] at hhd
          subst hhd
          exact nlOk_cons_nl_keep hd hJ

theorem headKeep_congr {s t : Str} (h : s.head? = t.head?) : headKeep s = headKeep t := by
  unfold headKeep
  rw [h]

theorem goodPiece_strip {line : Str} (hk : headKeep line = true) (hn : '\n' ∉ line)
    (hd : hasSeq ' ' ' ' line = false) :
    GoodPiece (pyStrip line) ∧ headKeep (pyStrip line) = true := by
  rcases pyStrip_of_headKeep hk with ⟨hne, hhd⟩
  refine ⟨⟨hne, pyStrip_idem line, fun hm => hn (mem_pyStrip hm), hasSeq_pyStrip_false hd⟩, ?_⟩
  rw [headKeep_congr hhd]
  exact hk

theorem goodPiece_head_not_space {s : Str} (h : GoodPiece s) :
    ∃ c, s.head? = some c ∧ pySpace c = false := by
  rcases head?_some_of_ne_nil h.1 with ⟨c, hc⟩
  have hps : (pyStrip s).head? = some c := by
    rw [h.2.1]
    exact hc
  exact ⟨c, hc, pyStrip_head_not_space hps⟩

theorem goodPiece_getLast_not_space {s : Str} (h : GoodPiece s) :
    ∃ c, s.getLast? = some c ∧ pySpace c = false := by
  rcases getLast?_some_of_ne_nil h.1 with ⟨c, hc⟩
  have hps : (pyStrip s).getLast? = some c := by
    rw [h.2.1]
    exact hc
  exact ⟨c, hc, pyStrip_getLast_not_space hps⟩

theorem not_space_ne_sp {c : Char} (h : pySpace c = false) : c ≠ ' ' := by
  intro he
  subst he
  exact absurd h (by decide)

theorem goodPiece_append {x y : Str} (hx : GoodPiece x) (hy : GoodPiece y) :
    GoodPiece (x ++ ' ' :: y) := by
  rcases goodPiece_head_not_space hx with ⟨c, hc, hcs⟩
  rcases goodPiece_getLast_not_space hx with ⟨cx, hcx, hcxs⟩
  rcases goodPiece_head_not_space hy with ⟨e, he, hes⟩
  rcases goodPiece_getLast_not_space hy with ⟨d, hd, hds⟩
  refine ⟨?_, ?_, ?_, ?_⟩
  · intro hnil
    rcases List.append_eq_nil.mp hnil with ⟨-, h2⟩
    exact absurd h2 (by simp)
  · refine pyStrip_eq_self ?_ hcs ?_ hds
    · rw [head?_append_ne_nil hx.1]
      exact hc
    · rw [getLast?_append_ne_nil (by simp), getLast?_cons_ne_nil hy.1]
      exact hd
  · intro hm
    rcases List.mem_append.mp hm with hm | hm
    · exact hx.2.2.1 hm
    · rcases List.mem_cons.mp hm with he2 | hm'
      · exact absurd he2 (by decide)
      · exact hy.2.2.1 hm'
  · apply hasSeq_append_false hx.2.2.2
    · apply hasSeq_cons_of hy.2.2.2
      right
      rw [he]
      intro hh
      simp only [Option.some.injEq] at hh
      exact not_space_ne_sp hes hh
    · rintro ⟨h1, -⟩
      rw [hcx] at h1
      simp only [Option.some.injEq] at h1
      exact not_space_ne_sp hcxs h1

theorem chainPunct_nil : chainPunct [] := trivial

theorem chainPunct_single {x : Str} : chainPunct [x] := trivial

theorem chainPunct_cons {x : Str} {ls : List Str} (h1 : ls ≠ [] → endsPunct x = true)
    (h2 : chainPunct ls) : chainPunct (x :: ls) := by
  cases ls with
  | nil => exact trivial
  | cons s r => exact ⟨h1 (by simp), h2⟩

theorem chainPunct_cons_elim {x s : Str} {r : List Str} (h : chainPunct (x :: s :: r)) :
    endsPunct x = true ∧ chainPunct (s :: r) := h

theorem joinNl_noHyphNl {ls : List Str} (h : ∀ s ∈ ls, GoodPiece s) (hc : chainPunct ls) :
    hasSeq '-' '\n' (joinNl ls) = false := by
  induction ls with
  | nil => rfl
  | cons s rest ih =>
    cases rest with
    | nil => exact hasSeq_false_of_not_mem_right (h s (List.mem_cons_self _ _)).2.2.1
    | cons s2 r2 =>
      show hasSeq '-' '\n' (s ++ '\n' :: joinNl (s2 :: r2)) = false
      have hgs := h s (List.mem_cons_self _ _)
      have hep : endsPunct s = true := (chainPunct_cons_elim hc).1
      rcases goodPiece_getLast_not_space hgs with ⟨c, hcl, hcs⟩
      have hpc : isPunctEnd c = true := by
        have heq := endsPunct_eq_of_getLast hcl hcs
        rw [← heq]
        exact hep
      apply hasSeq_append_false (hasSeq_false_of_not_mem_right hgs.2.2.1)
      · apply hasSeq_cons_of
          (ih (fun u hu => h u (List.mem_cons_of_mem _ hu)) (chainPunct_cons_elim hc).2)
        left
        decide
      · rintro ⟨h1, -⟩
        rw [hcl] at h1
        simp only [Option.some.injEq] at h1
        exact punct_ne_hyphen hpc h1

theorem joinLines_good :
    ∀ (lines : List Str) (buf : Str),
      (∀ s ∈ lines, headKeep s = true ∧ '\n' ∉ s ∧ hasSeq ' ' ' ' s = false) →
      buf = [] ∨ GoodPiece buf →
      (∀ s ∈ joinLines lines buf, GoodPiece s) ∧
      chainPunct (joinLines lines buf) ∧
      (∀ s ∈ (joinLines lines buf).tail, headKeep s = true) ∧
      (buf = [] ∨ headKeep buf = true → ∀ s ∈ joinLines lines buf, headKeep s = true) := by
  intro lines
  induction lines with
  | nil =>
    intro buf hl hb
    by_cases he : buf = []
    · simp only [joinLines]
      rw [if_pos he]
      exact ⟨fun s hs => absurd hs (List.not_mem_nil s), chainPunct_nil,
        fun s hs => absurd hs (by simp), fun _ s hs => absurd hs (List.not_mem_nil s)⟩
    · simp only [joinLines]
      rw [if_neg he]
      rcases hb with hb | hb
      · exact absurd hb he
      rw [hb.2.1]
      refine ⟨?_, chainPunct_single, ?_, ?_⟩
      · intro s hs
        rw [List.mem_singleton] at hs
        subst hs
        exact hb
      · intro s hs
        simp at hs
      · intro hk s hs
        rw [List.mem_singleton] at hs
        subst hs
        rcases hk with hk | hk
        · exact absurd hk he
        · exact hk
  | cons line rest ih =>
    intro buf hl hb
    have hline := hl line (List.mem_cons_self _ _)
    have hrest : ∀ s ∈ rest, headKeep s = true ∧ '\n' ∉ s ∧ hasSeq ' ' ' ' s = false :=
      fun s hs => hl s (List.mem_cons_of_mem _ hs)
    rcases goodPiece_strip hline.1 hline.2.1 hline.2.2 with ⟨hgp, hkp⟩
    have hlne : pyStrip line ≠ [] := hgp.1
    simp only [joinLines]
    rw [if_neg hlne]
    by_cases hbe : buf = []
    · rw [if_pos hbe]
      rcases ih (pyStrip line) hrest (Or.inr hgp) with ⟨a, b, c, d⟩
      exact ⟨a, b, c, fun _ => d (Or.inr hkp)⟩
    · rw [if_neg hbe]
      rcases hb with hb | hgb
      · exact absurd hb hbe
      by_cases hep : endsPunct buf
      · rw [if_pos hep, hgb.2.1]
        rcases ih (pyStrip line) hrest (Or.inr hgp) with ⟨a, b, c, d⟩
        have allk := d (Or.inr hkp)
        refine ⟨?_, chainPunct_cons (fun _ => hep) b, ?_, ?_⟩
        · intro s hs
          rcases List.mem_cons.mp hs with rfl | hs'
          · exact hgb
          · exact a s hs'
        · intro s hs
          simp only [List.tail_cons] at hs
          exact allk s hs
        · intro hk s hs
          rcases List.mem_cons.mp hs with rfl | hs'
          · rcases hk with hk | hk
            · exact absurd hk hbe
            · exact hk
          · exact allk s hs'
      · rw [if_neg hep]
        have hgb2 := goodPiece_append hgb hgp
        rcases ih (buf ++ ' ' :: pyStrip line) hrest (Or.inr hgb2) with ⟨a, b, c, d⟩
        refine ⟨a, b, c, ?_⟩
        intro hk
        rcases hk with hk | hk
        · exact absurd hk hbe
        apply d
        right
        rw [headKeep_congr (head?_append_ne_nil hbe)]
        exact hk

theorem joinLines_fixed : ∀ (rest : List Str) (buf : Str), GoodPiece buf →
    (∀ s ∈ rest, GoodPiece s) → chainPunct (buf :: rest) →
    joinLines rest buf = buf :: rest := by
  intro rest
  induction rest with
  | nil =>
    intro buf hgb _ _
    simp only [joinLines]
    rw [if_neg hgb.1, hgb.2.1]
  | cons l rest ih =>
    intro buf hgb hgr hc
    have hgl := hgr l (List.mem_cons_self _ _)
    simp only [joinLines]
    rw [hgl.2.1]
    rw [if_neg hgl.1, if_neg hgb.1, if_pos (chainPunct_cons_elim hc).1, hgb.2.1]
    rw [ih l hgl (fun s hs => hgr s (List.mem_cons_of_mem _ hs)) (chainPunct_cons_elim hc).2]

theorem normalize_good (t : Str) :
    normalizeText t = [] ∨
    ∃ ls, normalizeText t = joinNl ls ∧ ls ≠ [] ∧ (∀ s ∈ ls, GoodPiece s) ∧
      chainPunct ls ∧ (∀ s ∈ ls.tail, headKeep s = true) := by
  unfold normalizeText
  have hnl2 : nlOk (sub2 (sub1 t)) = true := nlOk_sub2 (sub1 t)
  have hnl3 : nlOk (sub3 (sub2 (sub1 t))) = true := nlOk_sub3go hnl2 false
  rw [sub4_eq_of_nlOk hnl3]
  have hDbl3 : hasSeq ' ' ' ' (sub3 (sub2 (sub1 t))) = false := sub3go_noDbl (sub2 (sub1 t)) false
  have hlines_nl := splitNl_no_nl (sub3 (sub2 (sub1 t)))
  have hlines_sp := splitNl_hasSeq (sub3 (sub2 (sub1 t))) hDbl3
  have hkeep := splitNl_keep (sub3 (sub2 (sub1 t))) hnl3
  cases hsp : splitNl (sub3 (sub2 (sub1 t))) with
  | nil => exact absurd hsp (splitNl_ne_nil _)
  | cons l0 rest =>
    rw [hsp] at hlines_nl hlines_sp hkeep
    have hrest_hyp : ∀ s ∈ rest, headKeep s = true ∧ '\n' ∉ s ∧ hasSeq ' ' ' ' s = false := by
      intro s hs
      exact ⟨hkeep.1 s hs, hlines_nl s (List.mem_cons_of_mem _ hs),
        hlines_sp s (List.mem_cons_of_mem _ hs)⟩
    by_cases h0 : pyStrip l0 = []
    · have hJ : joinLines (l0 :: rest) [] = joinLines rest [] := by
        simp only [joinLines]
        rw [if_pos h0]
        simp
      rw [hJ]
      rcases joinLines_good rest [] hrest_hyp (Or.inl rfl) with ⟨a, b, c, -⟩
      by_cases hoe : joinLines rest [] = []
      · left
        rw [hoe]
        rfl
      · right
        exact ⟨joinLines rest [], rfl, hoe, a, b, c⟩
    · have hJ : joinLines (l0 :: rest) [] = joinLines rest (pyStrip l0) := by
        simp only [joinLines]
        rw [if_neg h0]
        simp
      rw [hJ]
      have hgp0 : GoodPiece (pyStrip l0) := ⟨h0, pyStrip_idem l0,
        fun hm => hlines_nl l0 (List.mem_cons_self _ _) (mem_pyStrip hm),
        hasSeq_pyStrip_false (hlines_sp l0 (List.mem_cons_self _ _))⟩
      rcases joinLines_good rest (pyStrip l0) hrest_hyp (Or.inr hgp0) with ⟨a, b, c, -⟩
      by_cases hoe : joinLines rest (pyStrip l0) = []
      · left
        rw [hoe]
        rfl
      · right
        exact ⟨joinLines rest (pyStrip l0), rfl, hoe, a, b, c⟩

theorem spGo_noDbl (l : Str) (h : hasSeq '\n' '\n' l = false) :
    spGo 0 l = [l] ∧ (l.head? ≠ some '\n' → spGo 1 l = ['\n' :: l]) := by
  induction l with
  | nil => exact ⟨rfl, fun _ => rfl⟩
  | cons c rest ih =>
    rcases ih (hasSeq_tail h) with ⟨hP, hQ⟩
    constructor
    · by_cases hc : c = '\n'
      · subst hc
        have h1 : spGo 0 ('\n' :: rest) = spGo 1 rest := by
          simp only [spGo]
          simp
        rw [h1, hQ (hasSeq_head h rfl)]
      · have h1 : spGo 0 (c :: rest) = consHead c (spGo 0 rest) := by
          simp only [spGo]
          rw [if_neg hc]
          simp
        rw [h1, hP]
        rfl
    · intro hh
      have hc : c ≠ '\n' := by
        intro he
        exact hh (by subst he; rfl)
      have h1 : spGo 1 (c :: rest) = consHead '\n' (consHead c (spGo 0 rest)) := by
        simp only [spGo]
        rw [if_neg hc]
        simp
      rw [h1, hP]
      rfl

theorem splitParas_eq_of_noDbl {l : Str} (h : hasSeq '\n' '\n' l = false) :
    splitParas l = [l] :=
  (spGo_noDbl l h).1

theorem normalize_output_facts (t : Str) :
    hasSeq '\n' '\n' (normalizeText t) = false ∧
    hasSeq ' ' ' ' (normalizeText t) = false ∧
    hasSeq '-' '\n' (normalizeText t) = false ∧
    nlOk (normalizeText t) = true := by
  rcases normalize_good t with h | ⟨ls, hO, hne, hgood, hchain, hkeep⟩
  · rw [h]
    exact ⟨rfl, rfl, rfl, rfl⟩
  · rw [hO]
    refine ⟨joinNl_hasDblNl (fun s hs => ⟨(hgood s hs).1, (hgood s hs).2.2.1⟩),
      joinNl_hasSeq_sp (fun s hs => (hgood s hs).2.2.2),
      joinNl_noHyphNl hgood hchain,
      joinNl_nlOk (fun s hs => ⟨(hgood s hs).1, (hgood s hs).2.2.1⟩) hkeep⟩

/-- C3: the normalizer is idempotent: applying normalize_text to its own
output returns that output unchanged, for every input string. -/
theorem normalize_idempotent (t : Str) :
    normalizeText (normalizeText t) = normalizeText t := by
  rcases normalize_good t with h | ⟨ls, hO, hne, hgood, hchain, hkeep⟩
  · rw [h]
    rfl
  · rw [hO]
    have hOnl : nlOk (joinNl ls) = true :=
      joinNl_nlOk (fun s hs => ⟨(hgood s hs).1, (hgood s hs).2.2.1⟩) hkeep
    have hOsp : hasSeq ' ' ' ' (joinNl ls) = false :=
      joinNl_hasSeq_sp (fun s hs => (hgood s hs).2.2.2)
    have hOhy : hasSeq '-' '\n' (joinNl ls) = false := joinNl_noHyphNl hgood hchain
    unfold normalizeText
    rw [sub1_eq_of_noHyphNl hOhy, sub2_eq_of_nlOk hOnl, sub3_eq_of_noDbl hOsp,
      sub4_eq_of_nlOk hOnl]
    rw [splitNl_joinNl ls hne (fun s hs => (hgood s hs).2.2.1)]
    cases ls with
    | nil => exact absurd rfl hne
    | cons l0 rest =>
      have hg0 := hgood l0 (List.mem_cons_self _ _)
      have hJ : joinLines (l0 :: rest) [] = joinLines rest l0 := by
        simp only [joinLines]
        rw [hg0.2.1, if_neg hg0.1]
        simp
      rw [hJ,
        joinLines_fixed rest l0 hg0 (fun s hs => hgood s (List.mem_cons_of_mem _ hs)) hchain]

/-- C10: the output of normalize_text never contains two consecutive newline
characters, so the paragraph split of split_into_clauses, which always
re-normalizes its input first, obtains exactly one paragraph. -/
theorem normalized_single_paragraph (t : Str) :
    hasSeq '\n' '\n' (normalizeText t) = false ∧
    splitParas (normalizeText t) = [normalizeText t] := by
  have h := (normalize_output_facts t).1
  exact ⟨h, splitParas_eq_of_noDbl h⟩

theorem clausesOfParas_min {minLength : Nat} :
    ∀ (paras : List Str) (c : Str), c ∈ clausesOfParas minLength paras →
      minLength ≤ (pyStrip c).length := by
  intro paras
  induction paras with
  | nil =>
    intro c hc
    simp [clausesOfParas] at hc
  | cons para rest ih =>
    intro c hc
    unfold clausesOfParas at hc
    by_cases h0 : pyStrip para = []
    · rw [if_pos h0] at hc
      exact ih c hc
    · rw [if_neg h0] at hc
      by_cases hs : sectionMatch (pyStrip para) = true
      · rw [if_pos hs] at hc
        by_cases hl : minLength ≤ (pyStrip (pyStrip para)).length
        · rw [if_pos hl] at hc
          rcases List.mem_cons.mp hc with rfl | hc'
          · rw [pyStrip_idem]
            exact hl
          · exact ih c hc'
        · rw [if_neg hl] at hc
          exact ih c hc
      · rw [if_neg hs] at hc
        rcases List.mem_append.mp hc with hc' | hc'
        · rcases List.mem_filter.mp hc' with ⟨hmem, hlen⟩
          rcases List.mem_map.mp hmem with ⟨s, -, rfl⟩
          rw [pyStrip_idem]
          exact of_decide_eq_true hlen
        · exact ih c hc'

theorem strip_fallbackDot (part : Str) :
    pyStrip (fallbackDot (pyStrip part)) = fallbackDot (pyStrip part) := by
  unfold fallbackDot
  by_cases h : pyStrip part ≠ [] ∧ (pyStrip part).getLast? ≠ some '.'
  · rw [if_pos h]
    rcases head?_some_of_ne_nil h.1 with ⟨c, hc⟩
    have h1 : (pyStrip part ++ ['.']).head? = some c := by
      rw [head?_append_ne_nil h.1]
      exact hc
    have h2 : (pyStrip part ++ ['.']).getLast? = some '.' := by
      rw [getLast?_append_ne_nil (by simp)]
      rfl
    exact pyStrip_eq_self h1 (pyStrip_head_not_space hc) h2 (by decide)
  · rw [if_neg h]
    exact pyStrip_idem part

theorem fallbackClauses_min {minLength : Nat} :
    ∀ (parts : List Str) (c : Str), c ∈ fallbackClauses minLength parts →
      minLength ≤ (pyStrip c).length := by
  intro parts
  induction parts with
  | nil =>
    intro c hc
    simp [fallbackClauses] at hc
  | cons part rest ih =>
    intro c hc
    unfold fallbackClauses at hc
    by_cases hl : minLength ≤ (fallbackDot (pyStrip part)).length
    · rw [if_pos hl] at hc
      rcases List.mem_cons.mp hc with rfl | hc'
      · rw [strip_fallbackDot]
        exact hl
      · exact ih c hc'
    · rw [if_neg hl] at hc
      exact ih c hc

/-- C5: every clause returned by split_into_clauses has trimmed length at
least min_length; shorter candidates are dropped in every branch, including
the fallback pass. -/
theorem clause_min_length_invariant (text : Str) (minLength : Nat) (c : Str)
    (hc : c ∈ splitIntoClauses text minLength) : minLength ≤ (pyStrip c).length := by
  unfold splitIntoClauses at hc
  by_cases h : clausesOfParas minLength (splitParas (normalizeText text)) = []
  · rw [if_pos h] at hc
    exact fallbackClauses_min _ c hc
  · rw [if_neg h] at hc
    exact clausesOfParas_min _ c hc

/-- A concrete clause input used to witness the segmentation theorems. -/
def exampleClause : Str := "This is a long enough pet clause.".data

/-- Witness for the segmentation length invariant at a concrete input. -/
theorem clause_min_length_invariant_witness :
    exampleClause ∈ splitIntoClauses exampleClause 20 ∧
    20 ≤ (pyStrip exampleClause).length := by
  have hmem : exampleClause ∈ splitIntoClauses exampleClause 20 := by
    rw [show splitIntoClauses exampleClause 20 = [exampleClause] from rfl]
    exact List.mem_singleton.mpr rfl
  exact ⟨hmem, clause_min_length_invariant exampleClause 20 exampleClause hmem⟩

/-- C8: segmenting the empty string returns the empty list (for the
configured positive min_length; the spec default is 20) and, the embedding
being total, never raises. -/
theorem empty_input_returns_empty (minLength : Nat) (h : 1 ≤ minLength) :
    splitIntoClauses [] minLength = [] := by
  unfold splitIntoClauses
  have h1 : normalizeText [] = [] := rfl
  rw [h1]
  have h2 : clausesOfParas minLength (splitParas []) = [] := rfl
  rw [h2, if_pos rfl]
  have h3 : simpleSplit ([] : Str) = [[]] := rfl
  rw [h3]
  unfold fallbackClauses
  rw [if_neg]
  · rfl
  · have h4 : fallbackDot (pyStrip ([] : Str)) = [] := rfl
    rw [h4]
    simp only [List.length_nil]
    omega

/-- Witness for the empty-input theorem at the default threshold. -/
theorem empty_input_returns_empty_witness :
    1 ≤ 20 ∧ splitIntoClauses [] 20 = [] :=
  ⟨by decide, empty_input_returns_empty 20 (by decide)⟩

set_option maxRecDepth 40000 in
/-- C2 (code bug evidence): on the input of end-to-end scenario 1 with
min_length 20, split_into_clauses returns one single merged clause, not the
two clauses the specification describes: the normalizer deletes the blank
line (a newline followed by a newline is not followed by a keep-class
character, so it is collapsed to a space), and the surviving single
paragraph starts with the numbered-section marker 1. and is therefore kept
whole. -/
theorem scenario1_single_merged_clause :
    splitIntoClauses scenario1Input 20 = [scenario1Merged] ∧
    (splitIntoClauses scenario1Input 20).length = 1 := by
  constructor
  · rfl
  · rfl

theorem argmaxPair_mem : ∀ {d : List (Str × ℚ)} {pr : Str × ℚ},
    argmaxPair d = some pr → pr ∈ d := by
  intro d
  induction d with
  | nil =>
    intro pr h
    simp [argmaxPair] at h
  | cons p rest ih =>
    intro pr h
    unfold argmaxPair at h
    cases hr : argmaxPair rest with
    | none =>
      rw [hr] at h
      simp only [Option.some.injEq] at h
      subst h
      exact List.mem_cons_self _ _
    | some q =>
      rw [hr] at h
      dsimp only at h
      by_cases hlt : p.2 < q.2
      · rw [if_pos hlt] at h
        simp only [Option.some.injEq] at h
        subst h
        exact List.mem_cons_of_mem _ (ih hr)
      · rw [if_neg hlt] at h
        simp only [Option.some.injEq] at h
        subst h
        exact List.mem_cons_self _ _

theorem argmaxPair_some {d : List (Str × ℚ)} (h : d ≠ []) :
    ∃ pr, argmaxPair d = some pr := by
  cases d with
  | nil => exact absurd rfl h
  | cons p rest =>
    cases hr : argmaxPair rest with
    | none => exact ⟨p, by unfold argmaxPair; rw [hr]⟩
    | some q =>
      by_cases hlt : p.2 < q.2
      · exact ⟨q, by unfold argmaxPair; rw [hr]; dsimp only; rw [if_pos hlt]⟩
      · exact ⟨p, by unfold argmaxPair; rw [hr]; dsimp only; rw [if_neg hlt]⟩

theorem find?_key_nodup : ∀ {d : List (Str × ℚ)} {pr : Str × ℚ},
    (d.map Prod.fst).Nodup → pr ∈ d →
    d.find? (fun q => decide (q.1 = pr.1)) = some pr := by
  intro d
  induction d with
  | nil =>
    intro pr _ h
    simp at h
  | cons p rest ih =>
    intro pr hnd hm
    rw [List.find?_cons]
    by_cases hk : p.1 = pr.1
    · rw [decide_eq_true hk]
      dsimp only
      rcases List.mem_cons.mp hm with rfl | hm'
      · rfl
      · exfalso
        simp only [List.map_cons, List.nodup_cons] at hnd
        exact hnd.1 (hk ▸ List.mem_map.mpr ⟨pr, hm', rfl⟩)
    · rw [decide_eq_false hk]
      dsimp only
      rcases List.mem_cons.mp hm with rfl | hm'
      · exact absurd rfl hk
      · simp only [List.map_cons, List.nodup_cons] at hnd
        exact ih hnd.2 hm'

theorem predict_fitted_inl {m : LeaseClauseClassifier} {P : FittedPipeline} {cs : List Str}
    (hs : m.state = FitState.fitted P cs) (x : Str) :
    m.predict (Sum.inl x) =
      Except.ok (Sum.inl (P.predictOne (defaultPreprocessor.clean_text x))) := by
  unfold LeaseClauseClassifier.predict
  rw [hs]

theorem predict_fitted_inr {m : LeaseClauseClassifier} {P : FittedPipeline} {cs : List Str}
    (hs : m.state = FitState.fitted P cs) (ts : List Str) :
    m.predict (Sum.inr ts) =
      Except.ok (Sum.inr (ts.map (fun t => P.predictOne (defaultPreprocessor.clean_text t)))) := by
  unfold LeaseClauseClassifier.predict
  rw [hs]

theorem predict_proba_fitted_inl {m : LeaseClauseClassifier} {P : FittedPipeline}
    {cs : List Str} (hs : m.state = FitState.fitted P cs) (x : Str) :
    m.predict_proba (Sum.inl x) =
      Except.ok (Sum.inl (cs.zip (P.proba (defaultPreprocessor.clean_text x)))) := by
  unfold LeaseClauseClassifier.predict_proba
  rw [hs]

theorem predict_proba_fitted_inr {m : LeaseClauseClassifier} {P : FittedPipeline}
    {cs : List Str} (hs : m.state = FitState.fitted P cs) (ts : List Str) :
    m.predict_proba (Sum.inr ts) =
      Except.ok (Sum.inr (ts.map
        (fun t => cs.zip (P.proba (defaultPreprocessor.clean_text t))))) := by
  unfold LeaseClauseClassifier.predict_proba
  rw [hs]

/-- C1: for every fitted classifier (the classes_ attribute always holds the
fitted pipeline class list, as fit and load establish) and every input, the
predicted label is the first key of maximal probability in the mapping
returned by predict_proba, and the probability stored under that key is the
maximum of the distribution. -/
theorem predict_argmax_consistency (m : LeaseClauseClassifier) (P : FittedPipeline)
    (cs : List Str) (x : Str) (hs : m.state = FitState.fitted P cs)
    (hcs : cs = P.classes) :
    ∃ lab dist, m.predict (Sum.inl x) = Except.ok (Sum.inl lab) ∧
      m.predict_proba (Sum.inl x) = Except.ok (Sum.inl dist) ∧
      argmaxKey dist = some lab ∧ dictLookup dist lab = maxVal dist := by
  subst hcs
  have hlen : (P.proba (defaultPreprocessor.clean_text x)).length = P.classes.length :=
    P.proba_len _
  have hzne : P.classes.zip (P.proba (defaultPreprocessor.clean_text x)) ≠ [] := by
    intro he
    have hlz := congrArg List.length he
    rw [List.length_zip, hlen] at hlz
    simp only [Nat.min_self, List.length_nil] at hlz
    exact P.classes_ne (List.length_eq_zero.mp hlz)
  rcases argmaxPair_some hzne with ⟨pr, hpr⟩
  refine ⟨pr.1, P.classes.zip (P.proba (defaultPreprocessor.clean_text x)),
    ?_, predict_proba_fitted_inl hs x, ?_, ?_⟩
  · rw [predict_fitted_inl hs x]
    unfold FittedPipeline.predictOne
    rw [hpr]
  · unfold argmaxKey
    rw [hpr]
    rfl
  · unfold dictLookup maxVal
    rw [hpr]
    have hnd : (List.map Prod.fst
        (P.classes.zip (P.proba (defaultPreprocessor.clean_text x)))).Nodup := by
      rw [List.map_fst_zip _ _ (le_of_eq hlen.symm)]
      exact P.classes_nodup
    rw [find?_key_nodup hnd (argmaxPair_mem hpr)]

/-- Witness for argmax consistency on a concrete fitted classifier. -/
theorem predict_argmax_consistency_witness :
    ∃ lab dist,
      exampleFitted.predict (Sum.inl ("monthly rent due".data)) = Except.ok (Sum.inl lab) ∧
      exampleFitted.predict_proba (Sum.inl ("monthly rent due".data)) =
        Except.ok (Sum.inl dist) ∧
      argmaxKey dist = some lab ∧ dictLookup dist lab = maxVal dist :=
  predict_argmax_consistency exampleFitted examplePipeline examplePipeline.classes
    ("monthly rent due".data) rfl rfl

/-- C4: loading a saved artifact reconstructs an instance with identical
predictions, identical probability distributions, the same classes_ and the
same hyperparameters (joblib round-trips the artifact value faithfully). -/
theorem save_load_roundtrip (m : LeaseClauseClassifier) (a : ModelArtifact)
    (h : m.save = Except.ok a) :
    (∀ x, (LeaseClauseClassifier.load a).predict x = m.predict x) ∧
    (∀ x, (LeaseClauseClassifier.load a).predict_proba x = m.predict_proba x) ∧
    (LeaseClauseClassifier.load a).classesOf = m.classesOf ∧
    (LeaseClauseClassifier.load a).kernel = m.kernel ∧
    (LeaseClauseClassifier.load a).C = m.C ∧
    (LeaseClauseClassifier.load a).gamma = m.gamma ∧
    (LeaseClauseClassifier.load a).max_features = m.max_features := by
  cases hst : m.state with
  | unfitted =>
    unfold LeaseClauseClassifier.save at h
    rw [hst] at h
    exact Except.noConfusion h
  | fitted P cs =>
    unfold LeaseClauseClassifier.save at h
    rw [hst] at h
    simp only [Except.ok.injEq] at h
    subst h
    have hls : (LeaseClauseClassifier.load
        ⟨P, cs, m.kernel, m.C, m.gamma, m.max_features⟩).state = m.state := by
      rw [hst]
      rfl
    refine ⟨?_, ?_, ?_, rfl, rfl, rfl, rfl⟩
    · intro x
      unfold LeaseClauseClassifier.predict
      rw [hls]
    · intro x
      unfold LeaseClauseClassifier.predict_proba
      rw [hls]
    · unfold LeaseClauseClassifier.classesOf
      rw [hls]

/-- Witness for save/load round-trip on a concrete fitted classifier. -/
theorem save_load_roundtrip_witness :
    exampleFitted.save = Except.ok exampleArtifact ∧
    (LeaseClauseClassifier.load exampleArtifact).predict (Sum.inl ("monthly rent".data)) =
      exampleFitted.predict (Sum.inl ("monthly rent".data)) ∧
    (LeaseClauseClassifier.load exampleArtifact).classesOf = exampleFitted.classesOf :=
  ⟨rfl,
   (save_load_roundtrip exampleFitted exampleArtifact rfl).1 (Sum.inl ("monthly rent".data)),
   (save_load_roundtrip exampleFitted exampleArtifact rfl).2.2.1⟩

/-- C6: predict, predict_proba, evaluate and save on an unfitted instance
all raise immediately with the fitted-first error messages of the source;
none returns a default result. -/
theorem unfitted_methods_raise (m : LeaseClauseClassifier)
    (h : m.state = FitState.unfitted) (x : Str ⊕ List Str) (texts labels : List Str) :
    m.predict x = Except.error predictErrMsg ∧
    m.predict_proba x = Except.error predictErrMsg ∧
    m.evaluate texts labels = Except.error evaluateErrMsg ∧
    m.save = Except.error saveErrMsg := by
  refine ⟨?_, ?_, ?_, ?_⟩
  · unfold LeaseClauseClassifier.predict
    rw [h]
  · unfold LeaseClauseClassifier.predict_proba
    rw [h]
  · unfold LeaseClauseClassifier.evaluate
    rw [h]
  · unfold LeaseClauseClassifier.save
    rw [h]

/-- Witness for the unfitted-state guard on a freshly constructed instance. -/
theorem unfitted_methods_raise_witness :
    initClassifier.state = FitState.unfitted ∧
    (initClassifier.predict (Sum.inl ("monthly rent".data)) = Except.error predictErrMsg ∧
     initClassifier.predict_proba (Sum.inl ("monthly rent".data)) =
       Except.error predictErrMsg ∧
     initClassifier.evaluate [] [] = Except.error evaluateErrMsg ∧
     initClassifier.save = Except.error saveErrMsg) :=
  ⟨rfl, unfitted_methods_raise initClassifier rfl (Sum.inl ("monthly rent".data)) [] []⟩

/-- C7: shape preservation: a single string yields a single label and a
single mapping; a list of n strings yields a list of n labels and a list of
n mappings. -/
theorem predict_shape_preservation (m : LeaseClauseClassifier) (P : FittedPipeline)
    (cs : List Str) (hs : m.state = FitState.fitted P cs) :
    (∀ s, ∃ lab, m.predict (Sum.inl s) = Except.ok (Sum.inl lab)) ∧
    (∀ ts, ∃ labs, m.predict (Sum.inr ts) = Except.ok (Sum.inr labs) ∧
      labs.length = ts.length) ∧
    (∀ s, ∃ d, m.predict_proba (Sum.inl s) = Except.ok (Sum.inl d)) ∧
    (∀ ts, ∃ ds, m.predict_proba (Sum.inr ts) = Except.ok (Sum.inr ds) ∧
      ds.length = ts.length) := by
  refine ⟨?_, ?_, ?_, ?_⟩
  · intro s
    exact ⟨_, predict_fitted_inl hs s⟩
  · intro ts
    exact ⟨_, predict_fitted_inr hs ts, List.length_map _ _⟩
  · intro s
    exact ⟨_, predict_proba_fitted_inl hs s⟩
  · intro ts
    exact ⟨_, predict_proba_fitted_inr hs ts, List.length_map _ _⟩

/-- Witness for shape preservation on a concrete fitted classifier. -/
theorem predict_shape_preservation_witness :
    exampleFitted.state = FitState.fitted examplePipeline examplePipeline.classes ∧
    (∃ lab, exampleFitted.predict (Sum.inl ("no pets allowed".data)) =
      Except.ok (Sum.inl lab)) ∧
    (∃ labs, exampleFitted.predict (Sum.inr ["rent due".data, "no pets".data]) =
      Except.ok (Sum.inr labs) ∧ labs.length = 2) := by
  refine ⟨rfl,
    (predict_shape_preservation exampleFitted examplePipeline examplePipeline.classes rfl).1
      ("no pets allowed".data), ?_⟩
  have h := (predict_shape_preservation exampleFitted examplePipeline
    examplePipeline.classes rfl).2.1 ["rent due".data, "no pets".data]
  simpa using h

/-- C9: cross_validate trains only a fresh pipeline configuration and never
mutates the instance it is called on: the instance after the call is the
instance before the call, fitted state included. -/
theorem cross_validate_no_mutation (m : LeaseClauseClassifier)
    (cvScore : PipelineConfig → List Str → List Str → Nat → List ℚ)
    (texts labels : List Str) (cv : Nat) :
    (m.cross_validate cvScore texts labels cv).2 = m := rfl
